import Mathlib

/-!
Verification of the log analyzer (src/main.rs) against its specification.

The embedding models the core of the program:
  * `parse_log_line` — the line parser built from the module-level regex
    `(\d{2}/\d{2}/\d{4} \d{2}:\d{2});\s*(\w+);\s*(.+)` (an unanchored search,
    as `Regex::captures` performs) followed by chrono timestamp parsing with
    format `%d/%m/%Y %H:%M`;
  * `load_logs` — the record store built by parsing every line, keeping
    successful parses in order;
  * `filter_logs` — the conjunctive filter over optional start/end/level/keyword
    criteria;
  * `summarize_logs` — the count-by-level aggregation.

Character classes (`\d`, `\w`, `\s`) are modelled over their ASCII parts, which
is where all of the specified behavior lives.  Timestamps are modelled as a
record of numeric calendar fields; chrono's calendar validation is modelled by
`dateOk` (proleptic Gregorian, leap years included) and its chronological
comparison by `dtLe`, which agrees with chrono on every calendar-valid value.
-/

/-- Calendar date-time at minute resolution, no timezone (chrono `NaiveDateTime`
restricted to the values this program can produce). -/
structure DateTime where
  year : Nat
  month : Nat
  day : Nat
  hour : Nat
  minute : Nat
deriving DecidableEq

/-- Injective encoding of the fields, lexicographic because every base strictly
exceeds the range of its field on calendar-valid values. -/
def DateTime.key (t : DateTime) : Nat :=
  (((t.year * 16 + t.month) * 32 + t.day) * 32 + t.hour) * 64 + t.minute

/-- chrono's chronological order on `NaiveDateTime` (valid values). -/
def dtLe (a b : DateTime) : Bool :=
  decide (DateTime.key a ≤ DateTime.key b)

/-- Proleptic Gregorian leap year, as chrono computes it. -/
def isLeapYear (y : Nat) : Bool :=
  (y % 4 == 0 && y % 100 != 0) || y % 400 == 0

def daysInMonth (y m : Nat) : Nat :=
  if m == 2 then (if isLeapYear y then 29 else 28)
  else if m == 4 || m == 6 || m == 9 || m == 11 then 30
  else 31

/-- chrono's calendar validation of the parsed numeric fields: this is exactly
what `NaiveDateTime::parse_from_str` checks once the digits are read. -/
def dateOk (t : DateTime) : Bool :=
  decide (1 ≤ t.month) && decide (t.month ≤ 12) &&
  decide (1 ≤ t.day) && decide (t.day ≤ daysInMonth t.year t.month) &&
  decide (t.hour ≤ 23) && decide (t.minute ≤ 59)

/-- Rust struct `LogEntry { timestamp, log_type, message }`. -/
structure LogEntry where
  timestamp : DateTime
  log_type : String
  message : String
deriving DecidableEq

/-- ASCII part of the regex class `\s`. -/
def isSpaceChar (c : Char) : Bool :=
  c == ' ' || c == '\t' || c == '\n' || c == '\r' || c == '\x0b' || c == '\x0c'

/-- ASCII part of the regex class `\w`. -/
def isWordChar (c : Char) : Bool :=
  c.isAlphanum || c == '_'

/-- Numeric value of a digit character. -/
def val (c : Char) : Nat := c.toNat - 48

/-- The tail of the regex after the second `;`: `\s*(.+)`.  The greedy `\s*`
consumes the maximal whitespace run; if nothing is left for `(.+)` the engine
backtracks one character, so an all-whitespace tail yields its last character
as the message and an empty tail fails the whole match attempt. -/
def msgOf (rest2 : List Char) : Option (List Char) :=
  match rest2.dropWhile isSpaceChar with
  | [] =>
    match rest2.getLast? with
    | some c => some [c]
    | none => none
  | c :: cr => some (c :: cr)

/-- One attempt of `LOG_REGEX` at a fixed start position: the fixed-shape
timestamp `\d{2}/\d{2}/\d{4} \d{2}:\d{2}` followed by `;`, then `\s*` (maximal:
`\s` and `\w` are disjoint so backtracking cannot help), then `\w+` (maximal:
a shorter run still ends on a word character, never on `;`), then `;`, then
`\s*(.+)` as in `msgOf`.  Returns the numeric timestamp fields together with
the level and message capture groups. -/
def matchAt : List Char → Option (DateTime × List Char × List Char)
  | a :: b :: '/' :: c :: d :: '/' :: e1 :: f :: g :: h :: ' ' :: i :: j :: ':' :: k :: m :: ';' :: rest =>
    if a.isDigit && b.isDigit && c.isDigit && d.isDigit && e1.isDigit && f.isDigit &&
       g.isDigit && h.isDigit && i.isDigit && j.isDigit && k.isDigit && m.isDigit then
      match (rest.dropWhile isSpaceChar).dropWhile isWordChar with
      | ';' :: rest2 =>
        if ((rest.dropWhile isSpaceChar).takeWhile isWordChar).isEmpty then none
        else
          match msgOf rest2 with
          | some msg =>
            some (⟨((val e1 * 10 + val f) * 10 + val g) * 10 + val h,
                   val c * 10 + val d,
                   val a * 10 + val b,
                   val i * 10 + val j,
                   val k * 10 + val m⟩,
                  (rest.dropWhile isSpaceChar).takeWhile isWordChar, msg)
          | none => none
      | _ => none
    else none
  | _ => none

/-- `Regex::captures`: the leftmost start position at which the pattern
matches wins. -/
def findMatch : List Char → Option (DateTime × List Char × List Char)
  | [] => none
  | c :: cr =>
    match matchAt (c :: cr) with
    | some r => some r
    | none => findMatch cr

/-- Rust `parse_log_line`: run the regex search, then parse capture 1 with
chrono (`%d/%m/%Y %H:%M`); a calendar-invalid timestamp makes the whole
function return `None` via `.ok()?`. -/
def parse_log_line (line : String) : Option LogEntry :=
  match findMatch line.data with
  | some (t, lvl, msg) => if dateOk t then some ⟨t, ⟨lvl⟩, ⟨msg⟩⟩ else none
  | none => none

/-- Rust `load_logs` with the file I/O stripped to its line sequence: push the
parse of every line that parses, in file order. -/
def load_logs (lines : List String) : List LogEntry :=
  lines.filterMap parse_log_line

/-- The clap `LogLevel` value enum. -/
inductive LogLevel
  | Error
  | Warning
  | Info
  | Debug
  | Trace
deriving DecidableEq

/-- Rust `format!("{:?}", level)` on the derived `Debug` instance. -/
def LogLevel.fmtDebug : LogLevel → String
  | .Error => "Error"
  | .Warning => "Warning"
  | .Info => "Info"
  | .Debug => "Debug"
  | .Trace => "Trace"

/-- Rust `str::to_uppercase` on the ASCII-only strings it is applied to. -/
def toUpperStr (s : String) : String :=
  ⟨s.data.map Char.toUpper⟩

/-- Greedy digit accumulator: read at most `k` further digits onto `acc`. -/
def numAcc : Nat → Nat → List Char → Nat × List Char
  | _, acc, [] => (acc, [])
  | 0, acc, rest => (acc, rest)
  | Nat.succ k, acc, c :: rest =>
    if c.isDigit then numAcc k (acc * 10 + val c) rest else (acc, c :: rest)

/-- chrono numeric field: at least one digit, greedily at most `k`. -/
def numN (k : Nat) (cs : List Char) : Option (Nat × List Char) :=
  match cs with
  | c :: rest => if c.isDigit then some (numAcc (k - 1) (val c) rest) else none
  | [] => none

/-- Model of chrono `NaiveDateTime::parse_from_str(s, "%d/%m/%Y %H:%M")`:
day and month read 1-2 digits, the year up to 4 (the model keeps the program's
unsigned 4-digit years), the literal `/`, `:` are exact, the blank matches any
whitespace run, the whole input must be consumed, and the resulting fields must
form a valid calendar date-time. -/
def chronoParse (s : String) : Option DateTime :=
  match numN 2 s.data with
  | some (d, '/' :: r2) =>
    match numN 2 r2 with
    | some (mo, '/' :: r4) =>
      match numN 4 r4 with
      | some (y, r5) =>
        match numN 2 (r5.dropWhile isSpaceChar) with
        | some (hh, ':' :: r7) =>
          match numN 2 r7 with
          | some (mi, []) =>
            if dateOk ⟨y, mo, d, hh, mi⟩ then some ⟨y, mo, d, hh, mi⟩ else none
          | _ => none
        | _ => none
      | none => none
    | _ => none
  | _ => none

/-- `List` version of Rust `str::starts_with`. -/
def startsWith : List Char → List Char → Bool
  | _, [] => true
  | [], _ :: _ => false
  | c :: cr, d :: dr => c == d && startsWith cr dr

/-- `List` version of Rust `str::contains` for a string pattern: some position
of the haystack starts with the needle (the empty needle always matches). -/
def containsSub : List Char → List Char → Bool
  | _, [] => true
  | [], _ :: _ => false
  | c :: cr, d :: dr => startsWith (c :: cr) (d :: dr) || containsSub cr (d :: dr)

/-- The filter closure of `filter_logs`, over the already-resolved criteria:
`valid` starts true and is and-ed with each specified test, and the keyword
clause `if !keyword_str.is_empty() && !log.message.contains(&keyword_str)`
clears it exactly when the keyword is non-empty and absent from the message. -/
def logAccept (start_dt end_dt : Option DateTime) (level_str : Option String)
    (keyword_str : String) (log : LogEntry) : Bool :=
  (match start_dt with
   | some s => dtLe s log.timestamp
   | none => true) &&
  (match end_dt with
   | some e => dtLe log.timestamp e
   | none => true) &&
  (match level_str with
   | some lv => log.log_type == lv
   | none => true) &&
  (keyword_str.data.isEmpty || containsSub log.message.data keyword_str.data)

/-- Rust `filter_logs`: resolve the raw criteria (`and_then` chrono parsing for
the bounds, upper-cased `Debug` name for the level, `unwrap_or_default` for the
keyword) and keep the entries accepted by the closure, in order. -/
def filter_logs (logs : List LogEntry) (start_time end_time : Option String)
    (log_level : Option LogLevel) (keyword : Option String) : List LogEntry :=
  logs.filter (logAccept (start_time.bind chronoParse) (end_time.bind chronoParse)
    (log_level.map fun lv => toUpperStr lv.fmtDebug) (keyword.getD ""))

/-- One `HashMap::entry(key).or_insert(0); *counter += 1` step on the map
graph, modelled as an association list with distinct keys. -/
def bump : List (String × Nat) → String → List (String × Nat)
  | [], k => [(k, 1)]
  | (k', v) :: rest, k =>
    if k' = k then (k', v + 1) :: rest else (k', v) :: bump rest k

/-- Rust `summarize_logs`: single pass over the records, incrementing the
counter keyed by the literal stored level token. -/
def summarize_logs (logs : List LogEntry) : List (String × Nat) :=
  logs.foldl (fun m log => bump m log.log_type) []

/-- Lookup in the summary map graph. -/
def lookupCount : List (String × Nat) → String → Option Nat
  | [], _ => none
  | (k, v) :: rest, q => if k = q then some v else lookupCount rest q

/-- The timestamp field shape of the grammar: `dd/mm/yyyy hh:mm`. -/
def TsShape (ts : List Char) : Prop :=
  ∃ a b c d e1 f g h i j k m,
    ts = [a, b, '/', c, d, '/', e1, f, g, h, ' ', i, j, ':', k, m] ∧
    ([a, b, c, d, e1, f, g, h, i, j, k, m].all Char.isDigit) = true

/-- Follows the words of the specification's grammar reading of C2: the line
itself begins with the three-field shape — timestamp, `;`, level, `;`,
message, whitespace tolerated after each delimiter — i.e. the same match
attempt as the code's but anchored at the start of the line. -/
def parse_log_line_anchored (line : String) : Option LogEntry :=
  match matchAt line.data with
  | some (t, lvl, msg) => if dateOk t then some ⟨t, ⟨lvl⟩, ⟨msg⟩⟩ else none
  | none => none

/-- The specification's four filter tests, written from its words: timestamp
at least `start` when a start bound is present (inclusive), at most `end`
when an end bound is present (inclusive), stored level equal to the given
level string when one is given, and the keyword occurring somewhere in the
message as a substring when a non-empty keyword is given. -/
def SpecSelected (sd ed : Option DateTime) (ls : Option String) (kw : String)
    (e : LogEntry) : Prop :=
  (∀ s, sd = some s → dtLe s e.timestamp = true) ∧
  (∀ s, ed = some s → dtLe e.timestamp s = true) ∧
  (∀ s, ls = some s → e.log_type = s) ∧
  (kw ≠ "" → ∃ p q, e.message.data = p ++ kw.data ++ q)

/-- Contiguous partition of a list into chunks of at most `n + 1` elements. -/
def chunksOf (n : Nat) : List LogEntry → List (List LogEntry)
  | [] => []
  | x :: xs => (x :: xs.take n) :: chunksOf n (xs.drop n)
termination_by l => l.length
decreasing_by
  simp only [List.length_cons, List.length_drop]
  omega

/-- Modelled from the spec: the "parallel, order-preserving partitioned
evaluation" of the filter predicate over large inputs — split the record list
into contiguous partitions, filter each partition independently with the same
criteria (the parallel fan-out reads only immutable data), and concatenate the
per-partition results in partition order (the order-preserving merge).  The
`src` snapshot's `filter_logs` carries no parallel path; this definition
models the one the specification describes. -/
def filterPartitioned (n : Nat) (logs : List LogEntry)
    (start_time end_time : Option String) (log_level : Option LogLevel)
    (keyword : Option String) : List LogEntry :=
  ((chunksOf n logs).map
    (fun part => filter_logs part start_time end_time log_level keyword)).flatten

/-- Modelled from the spec: the strategy selection at the Filter Engine call
site — above the fixed threshold of 1000 records take the partitioned
(parallel) path, otherwise the sequential scan. -/
def filter_logs_dispatch (n : Nat) (logs : List LogEntry)
    (start_time end_time : Option String) (log_level : Option LogLevel)
    (keyword : Option String) : List LogEntry :=
  if 1000 < logs.length then
    filterPartitioned n logs start_time end_time log_level keyword
  else
    filter_logs logs start_time end_time log_level keyword

theorem startsWith_iff (n h : List Char) :
    startsWith h n = true ↔ ∃ t, h = n ++ t := by
  induction n generalizing h with
  | nil =>
    simp [startsWith]
  | cons d dr ih =>
    cases h with
    | nil =>
      simp [startsWith]
    | cons c cr =>
      simp only [startsWith, Bool.and_eq_true, beq_iff_eq, ih, List.cons_append,
        List.cons.injEq]
      constructor
      · rintro ⟨rfl, t, rfl⟩
        exact ⟨t, rfl, rfl⟩
      · rintro ⟨t, rfl, rfl⟩
        exact ⟨rfl, t, rfl⟩

theorem containsSub_iff (h n : List Char) :
    containsSub h n = true ↔ ∃ p q, h = p ++ n ++ q := by
  induction h with
  | nil =>
    cases n with
    | nil => simp [containsSub]
    | cons d dr => simp [containsSub]
  | cons c cr ih =>
    cases n with
    | nil =>
      exact ⟨fun _ => ⟨[], c :: cr, rfl⟩, fun _ => rfl⟩
    | cons d dr =>
      simp only [containsSub, Bool.or_eq_true, startsWith_iff, ih]
      constructor
      · rintro (⟨t, ht⟩ | ⟨p, q, hpq⟩)
        · exact ⟨[], t, by simpa using ht⟩
        · exact ⟨c :: p, q, by simp [hpq]⟩
      · rintro ⟨p, q, hpq⟩
        cases p with
        | nil =>
          exact Or.inl ⟨q, by simpa using hpq⟩
        | cons p0 pr =>
          simp only [List.cons_append, List.cons.injEq] at hpq
          exact Or.inr ⟨pr, q, hpq.2⟩

theorem all_takeWhile_self (p : Char → Bool) (l : List Char) :
    (l.takeWhile p).all p = true :=
  List.all_eq_true.mpr (fun _ hx => List.mem_takeWhile_imp hx)

theorem msgOf_sound {rest2 msg : List Char} (H : msgOf rest2 = some msg) :
    ∃ sp2, rest2 = sp2 ++ msg ∧ sp2.all isSpaceChar = true ∧ msg ≠ [] := by
  rw [msgOf] at H
  split at H
  · next hdrop =>
    split at H
    · next c hlast =>
      have hne : rest2 ≠ [] := by
        intro hnil
        rw [hnil] at hlast
        exact Option.noConfusion hlast
      have hlast2 : c = rest2.getLast hne := by
        have := List.getLast?_eq_getLast rest2 hne
        rw [hlast] at this
        exact (Option.some.injEq _ _).mp this
      have hmsg : msg = [c] := (Option.some.injEq _ _).mp H |>.symm
      refine ⟨rest2.dropLast, ?_, ?_, by simp [hmsg]⟩
      · rw [hmsg, hlast2]
        exact (List.dropLast_append_getLast hne).symm
      · have hall : ∀ x ∈ rest2, isSpaceChar x = true :=
          List.dropWhile_eq_nil_iff.mp hdrop
        exact List.all_eq_true.mpr
          (fun x hx => hall x ((List.dropLast_sublist rest2).subset hx))
    · exact Option.noConfusion H
  · next c cr hdrop =>
    have hmsg : msg = c :: cr := (Option.some.injEq _ _).mp H |>.symm
    refine ⟨rest2.takeWhile isSpaceChar, ?_, all_takeWhile_self _ _, by simp [hmsg]⟩
    rw [hmsg, ← hdrop]
    exact (List.takeWhile_append_dropWhile isSpaceChar rest2).symm

theorem matchAt_sound {cs : List Char} {t : DateTime} {lvl msg : List Char}
    (H : matchAt cs = some (t, lvl, msg)) :
    ∃ ts sp1 sp2, cs = ts ++ ';' :: (sp1 ++ lvl ++ ';' :: (sp2 ++ msg)) ∧
      TsShape ts ∧ sp1.all isSpaceChar = true ∧ lvl ≠ [] ∧
      lvl.all isWordChar = true ∧ sp2.all isSpaceChar = true ∧ msg ≠ [] := by
  rw [matchAt.eq_def] at H
  split at H
  case h_2 => exact Option.noConfusion H
  case h_1 a b c d e1 f g h i j k m rest =>
    split at H
    case isFalse => exact Option.noConfusion H
    case isTrue hdig =>
      split at H
      case h_2 => exact Option.noConfusion H
      case h_1 rest2 heq =>
        split at H
        case isTrue => exact Option.noConfusion H
        case isFalse hlvlne =>
          split at H
          case h_2 => exact Option.noConfusion H
          case h_1 msg' hmsg =>
            simp only [Option.some.injEq, Prod.mk.injEq] at H
            obtain ⟨-, hlvl, hmsgeq⟩ := H
            subst hmsgeq
            obtain ⟨sp2, hrest2, hsp2, hmsgne⟩ := msgOf_sound hmsg
            refine ⟨[a, b, '/', c, d, '/', e1, f, g, h, ' ', i, j, ':', k, m],
              rest.takeWhile isSpaceChar, sp2, ?_, ?_, all_takeWhile_self _ _, ?_, ?_, hsp2, hmsgne⟩
            · simp only [List.cons_append, List.nil_append, List.cons.injEq, true_and]
              calc rest = rest.takeWhile isSpaceChar ++ rest.dropWhile isSpaceChar :=
                    (List.takeWhile_append_dropWhile isSpaceChar rest).symm
                _ = rest.takeWhile isSpaceChar ++ (lvl ++ ';' :: (sp2 ++ msg')) := by
                    rw [← List.takeWhile_append_dropWhile isWordChar (rest.dropWhile isSpaceChar),
                      heq, ← hlvl, hrest2]
                _ = rest.takeWhile isSpaceChar ++ lvl ++ ';' :: (sp2 ++ msg') := by
                    rw [List.append_assoc]
            · refine ⟨a, b, c, d, e1, f, g, h, i, j, k, m, rfl, ?_⟩
              simp only [List.all_cons, List.all_nil, Bool.and_true, Bool.and_eq_true] at hdig ⊢
              tauto
            · rw [← hlvl]
              intro hnil
              rw [← List.isEmpty_iff] at hnil
              exact hlvlne hnil
            · rw [← hlvl]
              exact all_takeWhile_self _ _

theorem findMatch_sound {cs : List Char} {r : DateTime × List Char × List Char}
    (H : findMatch cs = some r) :
    ∃ pre suf, cs = pre ++ suf ∧ matchAt suf = some r := by
  induction cs with
  | nil => exact Option.noConfusion H
  | cons c cr ih =>
    rw [findMatch] at H
    cases hm : matchAt (c :: cr) with
    | some r' =>
      rw [hm] at H
      exact ⟨[], c :: cr, rfl, hm.trans H⟩
    | none =>
      rw [hm] at H
      obtain ⟨pre, suf, hsplit, hmat⟩ := ih H
      exact ⟨c :: pre, suf, by rw [List.cons_append, ← hsplit], hmat⟩

theorem parse_log_line_sound {l : String} {e : LogEntry}
    (H : parse_log_line l = some e) :
    ∃ pre ts sp1 sp2,
      l.data = pre ++ ts ++ ';' :: (sp1 ++ e.log_type.data ++ ';' :: (sp2 ++ e.message.data)) ∧
      TsShape ts ∧ sp1.all isSpaceChar = true ∧ e.log_type.data ≠ [] ∧
      e.log_type.data.all isWordChar = true ∧ sp2.all isSpaceChar = true ∧
      e.message.data ≠ [] ∧ dateOk e.timestamp = true := by
  rw [parse_log_line] at H
  split at H
  case h_2 => exact Option.noConfusion H
  case h_1 t lvl msg heq =>
    split at H
    case isFalse => exact Option.noConfusion H
    case isTrue hdate =>
      have he : e = ⟨t, ⟨lvl⟩, ⟨msg⟩⟩ := ((Option.some.injEq _ _).mp H).symm
      subst he
      obtain ⟨pre, suf, hsplit, hmat⟩ := findMatch_sound heq
      obtain ⟨ts, sp1, sp2, hsuf, hts, hsp1, hlvlne, hw, hsp2, hmsgne⟩ := matchAt_sound hmat
      exact ⟨pre, ts, sp1, sp2,
        by rw [hsplit, hsuf]; simp [List.append_assoc], hts, hsp1, hlvlne, hw, hsp2, hmsgne, hdate⟩

theorem load_logs_eq_nil {lines : List String}
    (h : ∀ l ∈ lines, parse_log_line l = none) :
    load_logs lines = [] := by
  induction lines with
  | nil => rfl
  | cons l ls ih =>
    rw [load_logs, List.filterMap_cons, h l (List.mem_cons_self l ls)]
    exact ih (fun x hx => h x (List.mem_cons_of_mem l hx))

theorem string_ne_empty_iff (s : String) : s ≠ "" ↔ s.data ≠ [] := by
  rw [ne_eq, String.ext_iff]

theorem kw_clause_iff (kw : String) (msg : List Char) :
    (kw.data.isEmpty || containsSub msg kw.data) = true ↔
      (kw ≠ "" → ∃ p q, msg = p ++ kw.data ++ q) := by
  rcases kw with ⟨kdata⟩
  cases kdata with
  | nil => simp [string_ne_empty_iff]
  | cons c cr =>
    have hne : (⟨c :: cr⟩ : String) ≠ "" := by
      rw [string_ne_empty_iff]
      simp
    simp only [List.isEmpty_cons, Bool.false_or, containsSub_iff, hne, ne_eq,
      not_false_eq_true, forall_const]

theorem logAccept_iff (sd ed : Option DateTime) (ls : Option String) (kw : String)
    (e : LogEntry) :
    logAccept sd ed ls kw e = true ↔ SpecSelected sd ed ls kw e := by
  unfold logAccept SpecSelected
  simp only [Bool.and_eq_true, kw_clause_iff]
  constructor
  · rintro ⟨⟨⟨h1, h2⟩, h3⟩, h4⟩
    refine ⟨?_, ?_, ?_, h4⟩
    · intro s hs
      rw [hs] at h1
      exact h1
    · intro s hs
      rw [hs] at h2
      exact h2
    · intro s hs
      rw [hs] at h3
      exact beq_iff_eq.mp h3
  · rintro ⟨h1, h2, h3, h4⟩
    refine ⟨⟨⟨?_, ?_⟩, ?_⟩, h4⟩
    · cases sd with
      | none => rfl
      | some s => exact h1 s rfl
    · cases ed with
      | none => rfl
      | some s => exact h2 s rfl
    · cases ls with
      | none => rfl
      | some s => exact beq_iff_eq.mpr (h3 s rfl)

theorem chunksOf_flatten (n : Nat) (l : List LogEntry) :
    (chunksOf n l).flatten = l := by
  induction l using chunksOf.induct n with
  | case1 =>
    rw [chunksOf]
    rfl
  | case2 x xs ih =>
    rw [chunksOf]
    simp only [List.flatten_cons, ih, List.cons_append, List.take_append_drop]

theorem flatten_map_filter (p : LogEntry → Bool) (L : List (List LogEntry)) :
    (L.map (List.filter p)).flatten = L.flatten.filter p := by
  induction L with
  | nil => rfl
  | cons a L ih =>
    simp only [List.map_cons, List.flatten_cons, List.filter_append, ih]

theorem filterPartitioned_eq (n : Nat) (logs : List LogEntry)
    (start_time end_time : Option String) (log_level : Option LogLevel)
    (keyword : Option String) :
    filterPartitioned n logs start_time end_time log_level keyword =
      filter_logs logs start_time end_time log_level keyword := by
  rw [filterPartitioned]
  have hmap : (chunksOf n logs).map
      (fun part => filter_logs part start_time end_time log_level keyword) =
      (chunksOf n logs).map (List.filter (logAccept (start_time.bind chronoParse)
        (end_time.bind chronoParse) (log_level.map fun lv => toUpperStr lv.fmtDebug)
        (keyword.getD ""))) := rfl
  rw [hmap, flatten_map_filter, chunksOf_flatten]
  rfl

theorem lookupCount_bump_self (m : List (String × Nat)) (k : String) :
    lookupCount (bump m k) k = some ((lookupCount m k).getD 0 + 1) := by
  induction m with
  | nil => simp [bump, lookupCount]
  | cons kv rest ih =>
    obtain ⟨q, v⟩ := kv
    by_cases hq : q = k
    · subst hq
      simp [bump, lookupCount]
    · simp [bump, lookupCount, hq, ih]

theorem lookupCount_bump_ne (m : List (String × Nat)) (k q : String) (h : q ≠ k) :
    lookupCount (bump m k) q = lookupCount m q := by
  have hkq : k ≠ q := fun hh => h hh.symm
  induction m with
  | nil => simp [bump, lookupCount, hkq]
  | cons kv rest ih =>
    obtain ⟨k', v⟩ := kv
    by_cases hk : k' = k
    · subst hk
      simp [bump, lookupCount, hkq]
    · simp [bump, lookupCount, hk, ih]

theorem summarize_fold (logs : List LogEntry) (m : List (String × Nat)) (k : String) :
    lookupCount (logs.foldl (fun acc log => bump acc log.log_type) m) k =
      match lookupCount m k with
      | some v => some (v + logs.countP (fun e => e.log_type == k))
      | none =>
        if logs.countP (fun e => e.log_type == k) = 0 then none
        else some (logs.countP (fun e => e.log_type == k)) := by
  induction logs generalizing m with
  | nil =>
    cases h : lookupCount m k <;> simp [h]
  | cons e rest ih =>
    rw [List.foldl_cons, ih, List.countP_cons]
    by_cases he : e.log_type = k
    · rw [he, lookupCount_bump_self]
      cases h : lookupCount m k with
      | some v =>
        simp [h, he]
        omega
      | none =>
        simp [h, he]
        omega
    · rw [lookupCount_bump_ne m e.log_type k (fun hh => he hh.symm)]
      have : (e.log_type == k) = false := beq_eq_false_iff_ne.mpr he
      cases h : lookupCount m k <;> simp [h, this]

/-- C1: for every record store and every criteria combination, `filter_logs`
selects a record exactly when it satisfies every specified criterion under
logical AND — inclusive start and end bounds, the level test, the keyword
substring test, absent criteria vacuously true — the selected records appear
in their original store order, and with no criteria every record is
selected.  Inclusivity is witnessed by reflexivity of the timestamp order. -/
theorem filter_conjunction_order (logs : List LogEntry)
    (start_time end_time : Option String) (log_level : Option LogLevel)
    (keyword : Option String) :
    (filter_logs logs start_time end_time log_level keyword).Sublist logs ∧
    (∀ e, e ∈ filter_logs logs start_time end_time log_level keyword ↔
      e ∈ logs ∧ SpecSelected (start_time.bind chronoParse) (end_time.bind chronoParse)
        (log_level.map fun lv => toUpperStr lv.fmtDebug) (keyword.getD "") e) ∧
    (∀ t : DateTime, dtLe t t = true) ∧
    filter_logs logs none none none none = logs := by
  refine ⟨List.filter_sublist logs, ?_, ?_, ?_⟩
  · intro e
    rw [filter_logs, List.mem_filter, logAccept_iff]
  · intro t
    simp [dtLe]
  · rw [filter_logs]
    have : ∀ e : LogEntry, logAccept none none none "" e = true := by
      intro e
      rfl
    simp [this]

theorem filter_conjunction_order_witness :
    filter_logs [⟨⟨2024, 1, 1, 0, 0⟩, "ERROR", "disk full"⟩] none none none none =
      [⟨⟨2024, 1, 1, 0, 0⟩, "ERROR", "disk full"⟩] :=
  (filter_conjunction_order [⟨⟨2024, 1, 1, 0, 0⟩, "ERROR", "disk full"⟩]
    none none none none).2.2.2

/-- C3: filtering through the spec's parallel, order-preserving partitioned
path (any partition granularity) yields exactly the sequential
`filter_logs` result, and the threshold dispatch — partitioned above 1000
records, sequential below — therefore always equals the sequential path:
parallelism never alters result order or contents. -/
theorem parallel_sequential_equiv (n : Nat) (logs : List LogEntry)
    (start_time end_time : Option String) (log_level : Option LogLevel)
    (keyword : Option String) :
    filterPartitioned n logs start_time end_time log_level keyword =
      filter_logs logs start_time end_time log_level keyword ∧
    filter_logs_dispatch n logs start_time end_time log_level keyword =
      filter_logs logs start_time end_time log_level keyword := by
  refine ⟨filterPartitioned_eq n logs start_time end_time log_level keyword, ?_⟩
  rw [filter_logs_dispatch]
  split
  · exact filterPartitioned_eq n logs start_time end_time log_level keyword
  · rfl

theorem parallel_sequential_equiv_witness :
    filter_logs_dispatch 10 (List.replicate 1001 ⟨⟨2024, 1, 1, 0, 0⟩, "INFO", "ok"⟩)
        none none none none =
      filter_logs (List.replicate 1001 ⟨⟨2024, 1, 1, 0, 0⟩, "INFO", "ok"⟩)
        none none none none :=
  (parallel_sequential_equiv 10 (List.replicate 1001 ⟨⟨2024, 1, 1, 0, 0⟩, "INFO", "ok"⟩)
    none none none none).2

/-- C4: loading a file of N lines of which M are malformed produces exactly
N − M records — the records of the well-formed lines, in their original
relative order, with no deduplication. -/
theorem load_logs_silent_skip (lines : List String) :
    (load_logs lines).length + (lines.countP fun l => (parse_log_line l).isNone) =
      lines.length ∧
    load_logs lines =
      (lines.filter fun l => (parse_log_line l).isSome).filterMap parse_log_line := by
  induction lines with
  | nil => exact ⟨rfl, rfl⟩
  | cons l ls ih =>
    obtain ⟨ih1, ih2⟩ := ih
    cases h : parse_log_line l with
    | none =>
      constructor
      · rw [load_logs, List.filterMap_cons, h, List.countP_cons]
        rw [load_logs] at ih1
        simp [h]
        omega
      · rw [load_logs, List.filterMap_cons, h, List.filter_cons]
        simp only [h, Option.isSome_none, Bool.false_eq_true, if_false]
        exact ih2
    | some e =>
      constructor
      · rw [load_logs, List.filterMap_cons, h, List.countP_cons]
        rw [load_logs] at ih1
        simp [h]
        omega
      · rw [load_logs, List.filterMap_cons, h, List.filter_cons]
        simp only [h, Option.isSome_some, if_true]
        rw [List.filterMap_cons, h]
        rw [load_logs] at ih2
        rw [ih2]

theorem load_logs_silent_skip_witness :
    (load_logs ["15/03/2024 09:30; ERROR; disk full", "not a log line"]).length +
        (["15/03/2024 09:30; ERROR; disk full", "not a log line"].countP
          fun l => (parse_log_line l).isNone) = 2 :=
  (load_logs_silent_skip ["15/03/2024 09:30; ERROR; disk full", "not a log line"]).1

/-- C5: a start or end bound string that chrono cannot parse in the
`dd/mm/yyyy hh:mm` format is treated as no bound at all: filtering behaves
exactly as if that bound had not been given, with no error raised. -/
theorem bad_bound_disabled :
    (∀ (logs : List LogEntry) (s : String) (en : Option String)
       (lvl : Option LogLevel) (kw : Option String), chronoParse s = none →
       filter_logs logs (some s) en lvl kw = filter_logs logs none en lvl kw) ∧
    (∀ (logs : List LogEntry) (st : Option String) (s : String)
       (lvl : Option LogLevel) (kw : Option String), chronoParse s = none →
       filter_logs logs st (some s) lvl kw = filter_logs logs st none lvl kw) := by
  constructor
  · intro logs s en lvl kw h
    rw [filter_logs, filter_logs, Option.some_bind, h, Option.none_bind]
  · intro logs st s lvl kw h
    rw [filter_logs, filter_logs, Option.some_bind, h, Option.none_bind]

theorem bad_bound_disabled_witness :
    chronoParse "banana" = none ∧
    filter_logs [⟨⟨2024, 1, 1, 0, 0⟩, "INFO", "m"⟩] (some "banana") none none none =
      filter_logs [⟨⟨2024, 1, 1, 0, 0⟩, "INFO", "m"⟩] none none none none :=
  ⟨by decide,
   bad_bound_disabled.1 [⟨⟨2024, 1, 1, 0, 0⟩, "INFO", "m"⟩] "banana" none none none
     (by decide)⟩

/-- C6: the level criterion compares the stored level token for exact string
equality with the upper-cased name of the chosen level, which always lies in
the closed set ERROR/WARNING/INFO/DEBUG/TRACE; a record whose stored token
differs (for example lower- or mixed-case) can never pass when a level filter
is given, whatever the other criteria are. -/
theorem level_exact_match :
    (∀ lvl : LogLevel, toUpperStr lvl.fmtDebug ∈
       (["ERROR", "WARNING", "INFO", "DEBUG", "TRACE"] : List String)) ∧
    (∀ (sd ed : Option DateTime) (kw : String) (lvl : LogLevel) (e : LogEntry),
       e.log_type ≠ toUpperStr lvl.fmtDebug →
       logAccept sd ed (some (toUpperStr lvl.fmtDebug)) kw e = false) ∧
    (∀ (lvl : LogLevel) (e : LogEntry),
       logAccept none none (some (toUpperStr lvl.fmtDebug)) "" e = true ↔
         e.log_type = toUpperStr lvl.fmtDebug) ∧
    (∀ (logs : List LogEntry) (st en : Option String) (kw : Option String)
       (lvl : LogLevel) (e : LogEntry),
       e ∈ filter_logs logs st en (some lvl) kw →
       e.log_type = toUpperStr lvl.fmtDebug) := by
  refine ⟨?_, ?_, ?_, ?_⟩
  · intro lvl
    cases lvl <;> decide
  · intro sd ed kw lvl e hne
    have : (e.log_type == toUpperStr lvl.fmtDebug) = false := beq_eq_false_iff_ne.mpr hne
    rw [logAccept.eq_def]
    simp [this]
  · intro lvl e
    rw [logAccept.eq_def]
    simp
  · intro logs st en kw lvl e hmem
    rw [filter_logs, List.mem_filter] at hmem
    have h := hmem.2
    rw [logAccept.eq_def] at h
    simp only [Option.map_some, Option.map_some', Bool.and_eq_true, beq_iff_eq] at h
    exact h.1.2

theorem level_exact_match_witness :
    logAccept none none (some (toUpperStr LogLevel.Error.fmtDebug)) ""
      ⟨⟨2024, 1, 1, 0, 0⟩, "error", "m"⟩ = false :=
  level_exact_match.2.1 none none "" LogLevel.Error
    ⟨⟨2024, 1, 1, 0, 0⟩, "error", "m"⟩ (by decide)

/-- C7: the keyword test passes exactly when the keyword occurs anywhere in
the message as a substring; an empty keyword argument imposes no constraint
(it is identical to giving no keyword), and "connection timeout retrying"
matches the keyword "time". -/
theorem keyword_substring :
    (∀ (e : LogEntry) (kw : String), kw ≠ "" →
       (logAccept none none none kw e = true ↔
         ∃ p q, e.message.data = p ++ kw.data ++ q)) ∧
    (∀ (logs : List LogEntry) (st en : Option String) (lvl : Option LogLevel),
       filter_logs logs st en lvl (some "") = filter_logs logs st en lvl none) ∧
    containsSub "connection timeout retrying".data "time".data = true := by
  refine ⟨?_, ?_, by decide⟩
  · intro e kw hkw
    rw [logAccept_iff, SpecSelected]
    constructor
    · rintro ⟨-, -, -, h4⟩
      exact h4 hkw
    · intro hex
      exact ⟨fun s hs => Option.noConfusion hs, fun s hs => Option.noConfusion hs,
        fun s hs => Option.noConfusion hs, fun _ => hex⟩
  · intro logs st en lvl
    rfl

theorem keyword_substring_witness :
    logAccept none none none "time"
        ⟨⟨2024, 1, 1, 0, 0⟩, "INFO", "connection timeout retrying"⟩ = true ↔
      ∃ p q, (String.data "connection timeout retrying") = p ++ (String.data "time") ++ q :=
  keyword_substring.1 ⟨⟨2024, 1, 1, 0, 0⟩, "INFO", "connection timeout retrying"⟩
    "time" (by decide)

/-- C8: the summary maps each literal stored level token (no case folding, no
restriction to the closed level set) to the number of records bearing exactly
that token, and holds a key only for tokens that actually occur; with stored
levels ["ERROR", "error", "ERROR"] the summary gives ERROR ↦ 2, error ↦ 1 and
no entry for Error. -/
theorem summarize_counts :
    (∀ (logs : List LogEntry) (k : String),
       lookupCount (summarize_logs logs) k =
         if logs.countP (fun e => e.log_type == k) = 0 then none
         else some (logs.countP (fun e => e.log_type == k))) ∧
    lookupCount (summarize_logs
      [⟨⟨2024, 1, 1, 0, 0⟩, "ERROR", "a"⟩, ⟨⟨2024, 1, 1, 0, 0⟩, "error", "b"⟩,
       ⟨⟨2024, 1, 1, 0, 0⟩, "ERROR", "c"⟩]) "ERROR" = some 2 ∧
    lookupCount (summarize_logs
      [⟨⟨2024, 1, 1, 0, 0⟩, "ERROR", "a"⟩, ⟨⟨2024, 1, 1, 0, 0⟩, "error", "b"⟩,
       ⟨⟨2024, 1, 1, 0, 0⟩, "ERROR", "c"⟩]) "error" = some 1 ∧
    lookupCount (summarize_logs
      [⟨⟨2024, 1, 1, 0, 0⟩, "ERROR", "a"⟩, ⟨⟨2024, 1, 1, 0, 0⟩, "error", "b"⟩,
       ⟨⟨2024, 1, 1, 0, 0⟩, "ERROR", "c"⟩]) "Error" = none := by
  refine ⟨?_, by decide, by decide, by decide⟩
  intro logs k
  rw [summarize_logs, summarize_fold]
  rfl

theorem summarize_counts_witness :
    lookupCount (summarize_logs []) "ERROR" =
      if ([] : List LogEntry).countP (fun e => e.log_type == "ERROR") = 0 then none
      else some (([] : List LogEntry).countP (fun e => e.log_type == "ERROR")) :=
  summarize_counts.1 [] "ERROR"

/-- C9: parsing the exact line "15/03/2024 09:30; ERROR; disk full" yields
the record with timestamp 2024-03-15 09:30 (day/month order), level "ERROR"
and message "disk full"; parsing "not a log line" yields no record. -/
theorem parse_examples :
    parse_log_line "15/03/2024 09:30; ERROR; disk full" =
      some ⟨⟨2024, 3, 15, 9, 30⟩, "ERROR", "disk full"⟩ ∧
    parse_log_line "not a log line" = none := by
  exact ⟨by decide, by decide⟩

/-- C10: every record the parser produces has a non-empty message — the
grammar demands at least one character after the second semicolon — so no
empty message ever enters the record store (and hence the filter or the
aggregator), and a line that ends immediately after its second semicolon
produces no record at all. -/
theorem message_nonempty :
    (∀ (l : String) (e : LogEntry), parse_log_line l = some e → e.message ≠ "") ∧
    (∀ (lines : List String) (e : LogEntry), e ∈ load_logs lines → e.message ≠ "") ∧
    parse_log_line "15/03/2024 09:30; ERROR;" = none := by
  have hmain : ∀ (l : String) (e : LogEntry), parse_log_line l = some e →
      e.message ≠ "" := by
    intro l e H
    obtain ⟨pre, ts, sp1, sp2, -, -, -, -, -, -, hmsg, -⟩ := parse_log_line_sound H
    rw [ne_eq, String.ext_iff]
    exact hmsg
  refine ⟨hmain, ?_, by decide⟩
  intro lines e hmem
  rw [load_logs, List.mem_filterMap] at hmem
  obtain ⟨l, -, hl⟩ := hmem
  exact hmain l e hl

theorem message_nonempty_witness :
    (⟨⟨2024, 1, 1, 0, 0⟩, "A", "xy"⟩ : LogEntry).message ≠ "" :=
  message_nonempty.1 "01/01/2024 00:00; A; xy" ⟨⟨2024, 1, 1, 0, 0⟩, "A", "xy"⟩
    (by decide)

/-- C2 counterexample: the claim reads the grammar as covering the whole
line, but the regex search is unanchored — on a line with a stray character
before the timestamp field, the anchored three-field grammar fails while the
parser still produces a record. -/
theorem parse_grammar_anchored_cex :
    parse_log_line "x01/01/2024 00:00; A; b" = some ⟨⟨2024, 1, 1, 0, 0⟩, "A", "b"⟩ ∧
    parse_log_line_anchored "x01/01/2024 00:00; A; b" = none := by
  exact ⟨by decide, by decide⟩

/-- C2 (amended): the parser produces a record only if the line CONTAINS a
match of the three-field grammar — a (possibly empty) ignored piece of text,
then the `dd/mm/yyyy hh:mm` timestamp shape with a calendar-valid value, then
`;`, optional whitespace, a non-empty word-token level, `;`, optional
whitespace, and the non-empty remaining message text; a line with no such
match produces no record and is silently skipped, and a file consisting
entirely of non-matching lines yields an empty record store. -/
theorem parse_grammar_only_if :
    (∀ (l : String) (e : LogEntry), parse_log_line l = some e →
       ∃ pre ts sp1 sp2,
         l.data = pre ++ ts ++ ';' :: (sp1 ++ e.log_type.data ++ ';' ::
           (sp2 ++ e.message.data)) ∧
         TsShape ts ∧ sp1.all isSpaceChar = true ∧ e.log_type.data ≠ [] ∧
         e.log_type.data.all isWordChar = true ∧ sp2.all isSpaceChar = true ∧
         e.message.data ≠ [] ∧ dateOk e.timestamp = true) ∧
    (∀ lines : List String, (∀ l ∈ lines, parse_log_line l = none) →
       load_logs lines = []) :=
  ⟨fun _ _ H => parse_log_line_sound H, fun _ h => load_logs_eq_nil h⟩

theorem parse_grammar_only_if_witness :
    (∃ pre ts sp1 sp2,
       (String.data "01/02/2024 03:04; AB; hi") = pre ++ ts ++ ';' ::
         (sp1 ++ (String.data "AB") ++ ';' :: (sp2 ++ (String.data "hi"))) ∧
       TsShape ts ∧ sp1.all isSpaceChar = true ∧ (String.data "AB") ≠ [] ∧
       (String.data "AB").all isWordChar = true ∧ sp2.all isSpaceChar = true ∧
       (String.data "hi") ≠ [] ∧ dateOk ⟨2024, 2, 1, 3, 4⟩ = true) ∧
    load_logs ["nope"] = [] :=
  ⟨parse_grammar_only_if.1 "01/02/2024 03:04; AB; hi"
     ⟨⟨2024, 2, 1, 3, 4⟩, "AB", "hi"⟩ (by decide),
   parse_grammar_only_if.2 ["nope"] (by
     intro l hl
     rw [List.mem_singleton] at hl
     subst hl
     decide)⟩
